import Mathlib

/-!
Verification development for the DeepPoly bound-propagation core of CTBench
(src/AIDomains/deeppoly.py). Tensors are modelled as rational-valued index
functions together with an explicit extent: a tensor of shape (batch, e, n) is
modelled for a single batch element as a function on expression index k and
reference index i, with sums running over the extent. Machine floats are
modelled by exact rationals; the literal 1e-15 becomes the rational 1/10^15.
-/

namespace CTBench

/-- The literal 1e-15 used as the division guard in DeepPoly.dp_relu
(src/AIDomains/deeppoly.py lines 128 and 144). -/
def epsQ : ℚ := 1 / 10 ^ 15

/-- Modelled from the spec: get_neg_pos_comp is defined in AIDomains/ai_util.py,
which is not under src/. Per the spec (section 4.1), a coefficient is split into
its strictly-positive and strictly-negative parts, zero assigned to whichever
side; the source returns the pair (negative component, positive component). -/
def get_neg_pos_comp (c : ℚ) : ℚ × ℚ := (min c 0, max c 0)

/-- A cached bound pair, as stored in a layer's bound cache: a lower and an
upper tensor of a common extent dim. -/
structure Bnds where
  dim : ℕ
  lb : ℕ → ℚ
  ub : ℕ → ℚ

/-- The DeepPoly linear relation (class DeepPoly, src/AIDomains/deeppoly.py):
coefficient matrices and bias vectors of the lower and upper affine bounds,
indexed by target-expression index and reference index (batch dimension of
size one is dropped). -/
structure DeepPoly where
  x_l_coef : ℕ → ℕ → ℚ
  x_u_coef : ℕ → ℕ → ℚ
  x_l_bias : ℕ → ℚ
  x_u_bias : ℕ → ℚ

/-- Result of DeepPoly.__init__ (lines 15-28): either a fully initialized
object, or the silent early return of line 21, which leaves every field unset.
No exception can be raised on either path, so no error case is modelled. -/
inductive DeepPolyInit where
  | uninitialized
  | ok (dp : DeepPoly)

/-- DeepPoly.__init__ (lines 15-28). The guard on line 20 returns silently when
expr_coef is None and either coefficient is None; otherwise missing coefficients
default to expr_coef and missing biases default to the scalar zero tensor. -/
def DeepPoly.init (x_l_coef x_u_coef : Option (ℕ → ℕ → ℚ))
    (x_l_bias x_u_bias : Option (ℕ → ℚ))
    (expr_coef : Option (ℕ → ℕ → ℚ)) : DeepPolyInit :=
  match expr_coef, x_l_coef, x_u_coef with
  | none, some l, some u =>
      .ok ⟨l, u, x_l_bias.getD (fun _ => 0), x_u_bias.getD (fun _ => 0)⟩
  | none, _, _ => .uninitialized
  | some e, xl, xu =>
      .ok ⟨xl.getD e, xu.getD e, x_l_bias.getD (fun _ => 0), x_u_bias.getD (fun _ => 0)⟩

/-- Per-neuron lower relaxation slope of DeepPoly.dp_relu (lines 125-141):
the original-DP choice (line 125), the learned-parameter override (lines
130-133, where at iteration 0 the parameter is first overwritten with the
computed slope), then the stably-inactive (line 136) and stably-active
(line 140) overrides. -/
def reluLambdaL (lb ub : ℚ) (dpLambda : Option ℚ) (it : ℕ) : ℚ :=
  let l0 : ℚ := if ub < -lb then 0 else 1
  let l1 : ℚ :=
    match dpLambda with
    | none => l0
    | some lam => if it = 0 then l0 else lam
  let l2 : ℚ := if ub < 0 then 0 else l1
  if 0 < lb then 1 else l2

/-- Per-neuron upper relaxation slope of DeepPoly.dp_relu (lines 128, 137,
141). -/
def reluLambdaU (lb ub : ℚ) : ℚ :=
  let u0 : ℚ := ub / (ub - lb + epsQ)
  let u1 : ℚ := if ub < 0 then 0 else u0
  if 0 < lb then 1 else u1

/-- Per-neuron lower relaxation offset of DeepPoly.dp_relu (line 143). -/
def reluMuL (lb ub : ℚ) : ℚ := 0

/-- Per-neuron upper relaxation offset of DeepPoly.dp_relu (lines 144-145). -/
def reluMuU (lb ub : ℚ) : ℚ :=
  if lb < 0 ∧ 0 < ub then -ub * lb / (ub - lb + epsQ) else 0

/-- DeepPoly.dp_relu (lines 121-168). The coefficient split uses
get_neg_pos_comp (lines 150-151); offsets are reduced over the neuron axes
(lines 158-163) and added to the running biases. -/
def DeepPoly.dp_relu (dp : DeepPoly) (bounds : Bnds) (it : ℕ)
    (dpLambda : Option (ℕ → ℚ)) : DeepPoly :=
  let lambda_l : ℕ → ℚ := fun i =>
    reluLambdaL (bounds.lb i) (bounds.ub i) (dpLambda.map (fun f => f i)) it
  let lambda_u : ℕ → ℚ := fun i => reluLambdaU (bounds.lb i) (bounds.ub i)
  let mu_l : ℕ → ℚ := fun i => reluMuL (bounds.lb i) (bounds.ub i)
  let mu_u : ℕ → ℚ := fun i => reluMuU (bounds.lb i) (bounds.ub i)
  { x_l_coef := fun k i =>
      (get_neg_pos_comp (dp.x_l_coef k i)).2 * lambda_l i
        + (get_neg_pos_comp (dp.x_l_coef k i)).1 * lambda_u i
    x_u_coef := fun k i =>
      (get_neg_pos_comp (dp.x_u_coef k i)).2 * lambda_u i
        + (get_neg_pos_comp (dp.x_u_coef k i)).1 * lambda_l i
    x_l_bias := fun k => dp.x_l_bias k +
      ∑ i ∈ Finset.range bounds.dim,
        ((get_neg_pos_comp (dp.x_l_coef k i)).2 * mu_l i
          + (get_neg_pos_comp (dp.x_l_coef k i)).1 * mu_u i)
    x_u_bias := fun k => dp.x_u_bias k +
      ∑ i ∈ Finset.range bounds.dim,
        ((get_neg_pos_comp (dp.x_u_coef k i)).2 * mu_u i
          + (get_neg_pos_comp (dp.x_u_coef k i)).1 * mu_l i) }

/-- DeepPoly.dp_linear (lines 40-47). The weight has torch Linear layout
(out, in); coef.matmul(weight) contracts the out axis, whose extent outDim is
implicit in the tensor shapes of the source. -/
def DeepPoly.dp_linear (dp : DeepPoly) (outDim : ℕ) (weight : ℕ → ℕ → ℚ)
    (bias : Option (ℕ → ℚ)) : DeepPoly where
  x_l_coef := fun k i => ∑ o ∈ Finset.range outDim, dp.x_l_coef k o * weight o i
  x_u_coef := fun k i => ∑ o ∈ Finset.range outDim, dp.x_u_coef k o * weight o i
  x_l_bias := fun k => dp.x_l_bias k +
    (match bias with
     | none => 0
     | some b => ∑ o ∈ Finset.range outDim, dp.x_l_coef k o * b o)
  x_u_bias := fun k => dp.x_u_bias k +
    (match bias with
     | none => 0
     | some b => ∑ o ∈ Finset.range outDim, dp.x_u_coef k o * b o)

/-- DeepPoly.dp_bias (lines 49-54): coefficients unchanged, the bias tensor is
contracted against the coefficients over its extent. -/
def DeepPoly.dp_bias (dp : DeepPoly) (dim : ℕ) (b : ℕ → ℚ) : DeepPoly where
  x_l_coef := dp.x_l_coef
  x_u_coef := dp.x_u_coef
  x_l_bias := fun k => dp.x_l_bias k + ∑ i ∈ Finset.range dim, dp.x_l_coef k i * b i
  x_u_bias := fun k => dp.x_u_bias k + ∑ i ∈ Finset.range dim, dp.x_u_coef k i * b i

/-- DeepPoly.dp_scale (lines 56-60): coefficients scaled elementwise. -/
def DeepPoly.dp_scale (dp : DeepPoly) (s : ℕ → ℚ) : DeepPoly where
  x_l_coef := fun k i => dp.x_l_coef k i * s i
  x_u_coef := fun k i => dp.x_u_coef k i * s i
  x_l_bias := dp.x_l_bias
  x_u_bias := dp.x_u_bias

/-- DeepPoly.dp_add (lines 62-67): elementwise sum of two relations. -/
def DeepPoly.dp_add (dp other : DeepPoly) : DeepPoly where
  x_l_coef := fun k i => dp.x_l_coef k i + other.x_l_coef k i
  x_u_coef := fun k i => dp.x_u_coef k i + other.x_u_coef k i
  x_l_bias := fun k => dp.x_l_bias k + other.x_l_bias k
  x_u_bias := fun k => dp.x_u_bias k + other.x_u_bias k

/-- DeepPoly.dp_normalize (lines 108-119): folds the (-mean/sigma) bias term
into the biases and divides the coefficients by sigma. -/
def DeepPoly.dp_normalize (dp : DeepPoly) (dim : ℕ) (mean sigma : ℕ → ℚ) : DeepPoly where
  x_l_coef := fun k i => dp.x_l_coef k i / sigma i
  x_u_coef := fun k i => dp.x_u_coef k i / sigma i
  x_l_bias := fun k => dp.x_l_bias k +
    ∑ i ∈ Finset.range dim, dp.x_l_coef k i * (-mean i / sigma i)
  x_u_bias := fun k => dp.x_u_bias k +
    ∑ i ∈ Finset.range dim, dp.x_u_coef k i * (-mean i / sigma i)

/-- DeepPoly.dp_flatten (lines 194-198): a pure reshape, the identity in the
flattened model. -/
def DeepPoly.dp_flatten (dp : DeepPoly) : DeepPoly := dp

/-- DeepPoly.dp_concretize (lines 200-218) on the interval path: the reference
region is a plain bound pair (the zonotope branch of lines 202-205 is outside
the modelled box domain). Coefficients are sign-split and contracted against
the reference bounds over the reference extent. -/
def DeepPoly.dp_concretize (dp : DeepPoly) (bounds : Bnds) : (ℕ → ℚ) × (ℕ → ℚ) :=
  (fun k => dp.x_l_bias k +
      ∑ i ∈ Finset.range bounds.dim,
        ((get_neg_pos_comp (dp.x_l_coef k i)).2 * bounds.lb i
          + (get_neg_pos_comp (dp.x_l_coef k i)).1 * bounds.ub i),
   fun k => dp.x_u_bias k +
      ∑ i ∈ Finset.range bounds.dim,
        ((get_neg_pos_comp (dp.x_u_coef k i)).2 * bounds.ub i
          + (get_neg_pos_comp (dp.x_u_coef k i)).1 * bounds.lb i))

/-- An abstract-network layer (the layer kinds of the backprop_dp dispatch,
lines 270-309, restricted to the kinds expressible in the flattened 1-D tensor
model; Conv2d, pooling, upsampling and batch-norm are spatial and outside this
embedding). Modelled from the spec where the layer classes live in
AIDomains/abstract_layers.py, which is not under src/: per the spec (section 3)
every layer carries a mutable bound-cache slot (pair of numeric tensors, or
unset), and a ReLU layer additionally carries its output extent and an optional
learned relaxation parameter. -/
inductive Layer where
  | linear (inDim outDim : ℕ) (weight : ℕ → ℕ → ℚ) (bias : Option (ℕ → ℚ))
      (cache : Option Bnds)
  | relu (dim : ℕ) (cache : Option Bnds) (deepzLambda : Option (ℕ → ℚ))
  | flatten (cache : Option Bnds)
  | biasLayer (dim : ℕ) (b : ℕ → ℚ) (cache : Option Bnds)
  | scaleLayer (s : ℕ → ℚ) (cache : Option Bnds)
  | normalization (dim : ℕ) (mean sigma : ℕ → ℚ) (cache : Option Bnds)
  | sequential (layers : List Layer) (cache : Option Bnds)
  | resblock (residual : Layer) (downsample : Option Layer)
      (reluFinal : Option Layer) (cache : Option Bnds)

/-- The bound-cache slot of a layer (the .bounds attribute of the layer
classes). -/
def Layer.bounds : Layer → Option Bnds
  | .linear _ _ _ _ c => c
  | .relu _ c _ => c
  | .flatten c => c
  | .biasLayer _ _ c => c
  | .scaleLayer _ c => c
  | .normalization _ _ _ c => c
  | .sequential _ c => c
  | .resblock _ _ _ c => c

/-- Modelled from the spec: update_bounds of the layer classes is not under
src/; per the spec (section 4.4) it writes the resulting numeric bounds into
the layer's cache slot. -/
def Layer.update_bounds : Layer → Bnds → Layer
  | .linear a b w bi _, nb => .linear a b w bi (some nb)
  | .relu d _ z, nb => .relu d (some nb) z
  | .flatten _, nb => .flatten (some nb)
  | .biasLayer d b _, nb => .biasLayer d b (some nb)
  | .scaleLayer s _, nb => .scaleLayer s (some nb)
  | .normalization d m sg _, nb => .normalization d m sg (some nb)
  | .sequential ls _, nb => .sequential ls (some nb)
  | .resblock r d f _, nb => .resblock r d f (some nb)

/-- Whether a layer is a ReLU (the isinstance(layer, ReLU) tests). -/
def Layer.isRelu : Layer → Bool
  | .relu _ _ _ => true
  | _ => false

/-- The output extent of a ReLU layer (last_layer.output_dim, line 365); 0 for
other kinds, where the source never reads it. -/
def Layer.reluDim : Layer → ℕ
  | .relu d _ _ => d
  | _ => 0

mutual

/-- backprop_dp (lines 270-309): dispatch of the per-layer transfer rules. The
ReLU case models the lazy parameter initialization of lines 282-283 (a missing
learned parameter is replaced by the fresh -ones tensor; the shape-mismatch
test has no counterpart in the shapeless model). A ReLU with an unset bound
cache fails (the tuple unpacking of line 122 raises). The ResBlock case
(line 306) passes the undefined module-level name lambda_layer to dp_res_block,
so reaching it raises NameError: it is modelled as the error result and
dp_res_block is never invoked from the dispatch. -/
def backprop_dp (layer : Layer) (dp : DeepPoly) (it : ℕ) (useLambda : Bool) :
    Option DeepPoly :=
  match layer with
  | .sequential ls _ => backprop_list ls dp it useLambda
  | .linear _ outDim w b _ => some (dp.dp_linear outDim w b)
  | .flatten _ => some dp.dp_flatten
  | .normalization dim mean sigma _ => some (dp.dp_normalize dim mean sigma)
  | .relu _ cache dzl =>
      match cache with
      | none => none
      | some bnds =>
          some (dp.dp_relu bnds it
            (if useLambda then some (dzl.getD (fun _ => -1)) else none))
  | .biasLayer dim b _ => some (dp.dp_bias dim b)
  | .scaleLayer s _ => some (dp.dp_scale s)
  | .resblock _ _ _ _ => none

/-- The Sequential case of backprop_dp (lines 271-274): sub-layers applied in
strict reverse order. -/
def backprop_list (ls : List Layer) (dp : DeepPoly) (it : ℕ) (useLambda : Bool) :
    Option DeepPoly :=
  match ls with
  | [] => some dp
  | l :: rest =>
      match backprop_list rest dp it useLambda with
      | none => none
      | some dp1 => backprop_dp l dp1 it useLambda

end

/-- DeepPoly.dp_res_block (lines 252-267): optionally apply the final-ReLU
relaxation, seed the identity branch from the coefficients only (biases reset
to zero by the DeepPoly constructor on line 258), propagate the residual and
optional downsample branches, and sum. The dp_lambda dictionary of the source
(one slot for the final ReLU, passed as dp_lambda, and one use_lambda-style
value for each branch) is modelled by the three explicit parameters. -/
def DeepPoly.dp_res_block (dp : DeepPoly) (residual : Layer)
    (downsample : Option Layer) (relu_final : Option Layer) (it : ℕ)
    (lambdaFinal : Option (ℕ → ℚ)) (ulResidual ulDownsample : Bool) :
    Option DeepPoly :=
  let in_dp : Option DeepPoly :=
    match relu_final with
    | none => some dp
    | some rf =>
        match rf.bounds with
        | none => none
        | some bnds => some (dp.dp_relu bnds it lambdaFinal)
  match in_dp with
  | none => none
  | some ind =>
      let id_dp : DeepPoly := ⟨ind.x_l_coef, ind.x_u_coef, fun _ => 0, fun _ => 0⟩
      match backprop_dp residual ind it ulResidual with
      | none => none
      | some res_dp =>
          let id2 : Option DeepPoly :=
            match downsample with
            | none => some id_dp
            | some d => backprop_dp d id_dp it ulDownsample
          match id2 with
          | none => none
          | some idd => some (idd.dp_add res_dp)

mutual

/-- Modelled from the spec: the concrete forward semantics of the layer
classes live in AIDomains/abstract_layers.py, not under src/. Per the spec
(sections 4.1 and 6): Linear computes weight.x + bias, ReLU the elementwise
maximum with zero, Normalization (x - mean)/sigma, Bias and Scale elementwise
shift and product, Flatten a reshape (identity here), Sequential the
composition in order, and a residual block downsample(x) + residual(x)
(identity branch when no downsample) followed by the optional final ReLU. -/
def Layer.forward (layer : Layer) (x : ℕ → ℚ) : ℕ → ℚ :=
  match layer with
  | .linear inDim _ w b _ => fun o =>
      (∑ i ∈ Finset.range inDim, w o i * x i) +
        (match b with | none => 0 | some bb => bb o)
  | .relu _ _ _ => fun i => max (x i) 0
  | .flatten _ => x
  | .biasLayer _ b _ => fun i => x i + b i
  | .scaleLayer s _ => fun i => x i * s i
  | .normalization _ mean sigma _ => fun i => (x i - mean i) / sigma i
  | .sequential ls _ => forward_list ls x
  | .resblock res ds rf _ =>
      let idOut : ℕ → ℚ :=
        match ds with
        | none => x
        | some d => d.forward x
      let base : ℕ → ℚ := fun i => idOut i + res.forward x i
      match rf with
      | none => base
      | some r => r.forward base

/-- Forward composition of a layer list, first layer applied first. -/
def forward_list (ls : List Layer) (x : ℕ → ℚ) : ℕ → ℚ :=
  match ls with
  | [] => x
  | l :: rest => forward_list rest (l.forward x)

end

/-- The bound combination of backward_deeppoly (lines 320-325): the first
concretization point initializes the pair, later ones are intersected by
pointwise maximum of lower and minimum of upper bounds. -/
def mergeBounds (acc : Option ((ℕ → ℚ) × (ℕ → ℚ)))
    (nb : (ℕ → ℚ) × (ℕ → ℚ)) : (ℕ → ℚ) × (ℕ → ℚ) :=
  match acc with
  | none => nb
  | some a => (fun k => max (a.1 k) (nb.1 k), fun k => min (a.2 k) (nb.2 k))

/-- The loop of backward_deeppoly (lines 314-325) over the layers of the
processed prefix in reverse order: apply the transfer rule, then, at layer 0
(the reversed tail) against the input region or at any cached layer when
intermediate reuse is on, concretize and merge. -/
def backward_loop (layersRev : List Layer) (dp : DeepPoly) (it : ℕ)
    (useLambda useIntermediate : Bool) (absInput : Bnds)
    (acc : Option ((ℕ → ℚ) × (ℕ → ℚ))) : Option ((ℕ → ℚ) × (ℕ → ℚ)) :=
  match layersRev with
  | [] => acc
  | l :: rest =>
      match backprop_dp l dp it useLambda with
      | none => none
      | some dp1 =>
          let acc1 : Option ((ℕ → ℚ) × (ℕ → ℚ)) :=
            if rest.isEmpty then some (mergeBounds acc (dp1.dp_concretize absInput))
            else if useIntermediate then
              match l.bounds with
              | some b => some (mergeBounds acc (dp1.dp_concretize b))
              | none => acc
            else acc
          backward_loop rest dp1 it useLambda useIntermediate absInput acc1

/-- backward_deeppoly (lines 311-327): process layers layer_idx down to 0, with
the abstract input region given as its concretized box (the zonotope special
case of dp_concretize is outside the modelled box domain). -/
def backward_deeppoly (net : List Layer) (layerIdx : ℕ) (dp : DeepPoly)
    (it : ℕ) (useLambda useIntermediate : Bool) (absInput : Bnds) :
    Option ((ℕ → ℚ) × (ℕ → ℚ)) :=
  backward_loop ((net.take (layerIdx + 1)).reverse) dp it useLambda
    useIntermediate absInput none

/-- The identity expression coefficients torch.eye(k) (lines 366 and 382). -/
def eyeCoef (k : ℕ) : ℕ → ℕ → ℚ := fun a b => if a = b ∧ a < k then 1 else 0

/-- The identity seed relation DeepPoly(expr_coef=torch.eye(k)): both
coefficient matrices equal the identity, biases zero. -/
def eyeDP (k : ℕ) : DeepPoly := ⟨eyeCoef k, eyeCoef k, fun _ => 0, fun _ => 0⟩

/-- The loop of compute_dp_relu_bounds (lines 346-355) over the indices of the
slice net.layers[:max_layer_id]: a ReLU layer not yet in the memo is
recursively bounded (through the given recursion function, with
recompute_bounds left at its default True as in the source) unless its cache is
set and either recomputation is off or it is the first ReLU; in all those
cases the index is appended to the memo and the first-ReLU flag cleared.
Enumeration stops at the end of the layer list, as the Python slice does. The
state threaded through is (net, memo, log, firstRelu), where log collects the
indices whose backward-substitution pass was run. -/
def compute_loop
    (recurse : List Layer → ℕ → List ℕ → Option (List Layer × List ℕ × List ℕ))
    (recompute : Bool) :
    List ℕ → List Layer → List ℕ → Bool → List ℕ →
    Option (List Layer × List ℕ × List ℕ × Bool)
  | [], net, memo, fr, log => some (net, memo, log, fr)
  | i :: rest, net, memo, fr, log =>
    match net.get? i with
    | none => some (net, memo, log, fr)
    | some layer =>
        if layer.isRelu && !(memo.contains i) then
          if layer.bounds.isNone || recompute then
            if !(fr && layer.bounds.isSome) then
              match recurse net i memo with
              | none => none
              | some (net1, memo1, log1) =>
                  compute_loop recurse recompute rest net1 (memo1 ++ [i]) false
                    (log ++ log1)
            else compute_loop recurse recompute rest net (memo ++ [i]) false log
          else compute_loop recurse recompute rest net (memo ++ [i]) false log
        else compute_loop recurse recompute rest net memo fr log

/-- compute_dp_relu_bounds (lines 339-370), with an explicit structural fuel
for the recursion depth: every recursive target index is strictly below the
current one, so fuel max_layer_id + 1 (supplied by the wrapper below) is always
sufficient and the out-of-fuel result is unreachable from the wrapper. The
state is threaded explicitly: the result is the updated network, the updated
memo list already_bounded_layers and the log of layer indices whose
backward-substitution pass was run (one entry appended per backward_deeppoly
invocation, line 368). Failure (the Python exceptions: an out-of-range
requested index, or an error during substitution) is the none result. For
max_layer_id = 0 the input concretization is written into layer 0's cache
(lines 343-344 and 370) with no substitution; otherwise the loop of lines
349-355 first bounds every earlier ReLU layer, the non-ReLU early return of
lines 358-359 keeps the state mutated so far, and a ReLU target gets one
backward pass seeded with the identity over its output extent (lines 364-368)
written into its cache (line 370). -/
def computeF : ℕ → List Layer → ℕ → Bnds → ℕ → List ℕ → Bool → Bool → Bool →
    Option (List Layer × List ℕ × List ℕ)
  | 0, _, _, _, _, _, _, _, _ => none
  | fuel + 1, net, maxId, inp, it, memo, useLambda, recompute, useIntermediate =>
    if maxId = 0 then
      match net.get? 0 with
      | none => none
      | some l => some (net.set 0 (l.update_bounds inp), memo, [])
    else
      match compute_loop
          (fun n i m => computeF fuel n i inp it m useLambda true useIntermediate)
          recompute (List.range maxId) net memo true [] with
      | none => none
      | some (net1, memo1, log1, _) =>
          match net1.get? maxId with
          | none => none
          | some lmax =>
              if lmax.isRelu then
                match backward_deeppoly net1 (maxId - 1) (eyeDP lmax.reluDim) it
                    useLambda useIntermediate inp with
                | none => none
                | some (xl, xu) =>
                    some (net1.set maxId
                        (lmax.update_bounds ⟨lmax.reluDim, xl, xu⟩),
                      memo1, log1 ++ [maxId])
              else some (net1, memo1, log1)

/-- compute_dp_relu_bounds with the always-sufficient fuel max_layer_id + 1. -/
def compute_dp_relu_bounds (net : List Layer) (maxId : ℕ) (inp : Bnds)
    (it : ℕ) (memo : List ℕ) (useLambda recompute useIntermediate : Bool) :
    Option (List Layer × List ℕ × List ℕ) :=
  computeF (maxId + 1) net maxId inp it memo useLambda recompute useIntermediate

/-- forward_deeppoly (lines 373-392): optionally recompute all ReLU bounds
(with use_lambda fixed to False, line 378), seed the relation with either the
given expression coefficients or the identity over the network output extent
(outDim models np.prod of the discovered output shape, line 381), and run the
full backward substitution. -/
def forward_deeppoly (net : List Layer) (outDim : ℕ) (absInput : Bnds)
    (exprCoef : Option (ℕ → ℕ → ℚ)) (it : ℕ)
    (useLambda recompute useIntermediate : Bool) :
    Option ((ℕ → ℚ) × (ℕ → ℚ)) :=
  let netC : Option (List Layer) :=
    if recompute then
      match compute_dp_relu_bounds net (net.length - 1) absInput it [] false
          true useIntermediate with
      | none => none
      | some (net1, _, _) => some net1
    else some net
  match netC with
  | none => none
  | some net1 =>
      let dp : DeepPoly :=
        match exprCoef with
        | none => eyeDP outDim
        | some c => ⟨c, c, fun _ => 0, fun _ => 0⟩
      backward_deeppoly net1 (net1.length - 1) dp it useLambda useIntermediate
        absInput

/-! Concrete instances used by the C1, C5 and C6 theorems. -/

/-- A sound cached bound pair for one neuron: lb = -1, ub = 3. -/
def relu1Bounds : Bnds := ⟨1, fun _ => -1, fun _ => 3⟩

/-- A network consisting of a single ReLU layer with cached bounds [-1, 3]. -/
def relu1Net : List Layer := [Layer.relu 1 (some relu1Bounds) none]

/-- A 1x1 identity Linear layer with zero bias. -/
def idLinear : Layer :=
  Layer.linear 1 1 (fun o i => if o = i then 1 else 0) (some (fun _ => 0)) none

/-- A one-expression relation over one reference neuron whose coefficients are
the 1x1 identity and whose biases are 1. -/
def resIn : DeepPoly :=
  ⟨fun k i => if k = 0 ∧ i = 0 then 1 else 0,
   fun k i => if k = 0 ∧ i = 0 then 1 else 0,
   fun _ => 1, fun _ => 1⟩

/-- A network with a ReLU layer whose cache is already populated, behind a
linear layer. -/
def net2 : List Layer := [idLinear, Layer.relu 1 (some relu1Bounds) none]

/-- A network whose last layer is not a ReLU and whose middle ReLU layer has an
unset bound cache. -/
def net3 : List Layer := [idLinear, Layer.relu 1 none none, idLinear]

/-! Helper lemmas on the sign split. -/

theorem max_zero_eq_ite (c : ℚ) : max c 0 = if 0 < c then c else 0 := by
  rcases lt_or_le 0 c with h | h
  · rw [if_pos h, max_eq_left h.le]
  · rw [if_neg (not_lt.mpr h), max_eq_right h]

theorem min_zero_eq_ite (c : ℚ) : min c 0 = if c < 0 then c else 0 := by
  rcases lt_or_le c 0 with h | h
  · rw [if_pos h, min_eq_left h.le]
  · rw [if_neg (not_lt.mpr h), min_eq_right h]

/-- C2 counterexample: for the neuron with cached bounds lb = -1, ub = 3 the
upper relaxation slope computed by dp_relu is 3/(4 + 1e-15), which differs from
the claimed exact value 3/4; the upper offset likewise differs from 0.75. -/
theorem relu_unstable_upper_slope_ne_three_quarters :
    reluLambdaU (-1) 3 = (3000000000000000 : ℚ) / 4000000000000001 ∧
    reluLambdaU (-1) 3 ≠ 3 / 4 ∧ reluMuU (-1) 3 ≠ 3 / 4 := by
  refine ⟨?_, ?_, ?_⟩ <;> norm_num [reluLambdaU, reluMuU, epsQ]

/-- C2 (amended): for an unstable neuron (lb < 0 < ub) and no learned slope,
dp_relu uses upper slope ub/(ub-lb+eps) and upper offset -ub*lb/(ub-lb+eps)
with eps = 1e-15, lower slope 1 if ub >= -lb else 0, and lower offset 0; for
lb = -1, ub = 3 the upper slope and offset both equal 3/(4+eps), which is
within 1e-15 of 3/4 but not exactly 3/4, and the lower slope is 1, offset 0. -/
theorem relu_unstable_relaxation_formulas (lb ub : ℚ) (it : ℕ)
    (h1 : lb < 0) (h2 : 0 < ub) :
    reluLambdaU lb ub = ub / (ub - lb + epsQ) ∧
    reluMuU lb ub = -ub * lb / (ub - lb + epsQ) ∧
    reluLambdaL lb ub none it = (if -lb ≤ ub then 1 else 0) ∧
    reluMuL lb ub = 0 ∧
    reluLambdaU (-1) 3 = 3 / (4 + epsQ) ∧
    reluMuU (-1) 3 = 3 / (4 + epsQ) ∧
    |reluLambdaU (-1) 3 - 3 / 4| < epsQ ∧
    |reluMuU (-1) 3 - 3 / 4| < epsQ ∧
    reluLambdaL (-1) 3 none it = 1 := by
  have hnl : ¬ (0 < lb) := by linarith
  have hnu : ¬ (ub < 0) := by linarith
  refine ⟨?_, ?_, ?_, rfl, by norm_num [reluLambdaU, epsQ],
    by norm_num [reluMuU, epsQ],
    by rw [abs_lt]; constructor <;> norm_num [reluLambdaU, epsQ],
    by rw [abs_lt]; constructor <;> norm_num [reluMuU, epsQ], ?_⟩
  · simp only [reluLambdaU]
    rw [if_neg hnl, if_neg hnu]
  · simp only [reluMuU]
    rw [if_pos ⟨h1, h2⟩]
  · simp only [reluLambdaL]
    rw [if_neg hnl, if_neg hnu]
    by_cases hc : ub < -lb
    · rw [if_pos hc, if_neg (not_le.mpr hc)]
    · rw [if_neg hc, if_pos (not_lt.mp hc)]
  · simp only [reluLambdaL]
    norm_num

/-- C2 witness: the amended formulas hold at the concrete unstable neuron
lb = -1, ub = 3. -/
theorem relu_unstable_relaxation_formulas_witness :
    reluLambdaU (-1) 3 = 3 / (3 - (-1) + epsQ) :=
  (relu_unstable_relaxation_formulas (-1) 3 0 (by norm_num) (by norm_num)).1

/-- C3 counterexample: for cached bounds entirely nonnegative but with lb = 0
(lb = 0, ub = 1), dp_relu is not the exact identity: the upper slope is
1/(1 + 1e-15), not 1. -/
theorem relu_nonneg_bounds_not_exact_identity :
    (0 : ℚ) ≤ 0 ∧ (0 : ℚ) ≤ 1 ∧
    reluLambdaU 0 1 = (1000000000000000 : ℚ) / 1000000000000001 ∧
    reluLambdaU 0 1 ≠ 1 := by
  refine ⟨le_refl 0, by norm_num, ?_, ?_⟩ <;> norm_num [reluLambdaU, epsQ]

/-- C3 (amended): for a valid bound pair (lb <= ub), dp_relu acts as the exact
identity on a neuron with strictly positive lower bound (both slopes 1, both
offsets 0, coefficients preserved), forces a neuron with strictly negative
upper bound to exactly zero (both slopes and offsets 0, any coefficient
annihilated regardless of sign), and a supplied learned lower-slope parameter
is still forced to 0 when ub < 0 and to 1 when lb > 0. -/
theorem relu_stable_overrides (lb ub : ℚ) (dpLambda : Option ℚ) (it : ℕ)
    (c : ℚ) (hlu : lb ≤ ub) :
    (ub < 0 →
      reluLambdaL lb ub dpLambda it = 0 ∧ reluLambdaU lb ub = 0 ∧
      reluMuL lb ub = 0 ∧ reluMuU lb ub = 0 ∧
      (get_neg_pos_comp c).2 * reluLambdaL lb ub dpLambda it
        + (get_neg_pos_comp c).1 * reluLambdaU lb ub = 0 ∧
      (get_neg_pos_comp c).2 * reluLambdaU lb ub
        + (get_neg_pos_comp c).1 * reluLambdaL lb ub dpLambda it = 0) ∧
    (0 < lb →
      reluLambdaL lb ub dpLambda it = 1 ∧ reluLambdaU lb ub = 1 ∧
      reluMuL lb ub = 0 ∧ reluMuU lb ub = 0 ∧
      (get_neg_pos_comp c).2 * reluLambdaL lb ub dpLambda it
        + (get_neg_pos_comp c).1 * reluLambdaU lb ub = c ∧
      (get_neg_pos_comp c).2 * reluLambdaU lb ub
        + (get_neg_pos_comp c).1 * reluLambdaL lb ub dpLambda it = c) := by
  constructor
  · intro hu
    have hnl : ¬ (0 < lb) := by linarith
    have hl : reluLambdaL lb ub dpLambda it = 0 := by
      simp only [reluLambdaL]
      rw [if_neg hnl, if_pos hu]
    have hu' : reluLambdaU lb ub = 0 := by
      simp only [reluLambdaU]
      rw [if_neg hnl, if_pos hu]
    have hmu : reluMuU lb ub = 0 := by
      simp only [reluMuU]
      rw [if_neg]
      rintro ⟨-, h2⟩; linarith
    exact ⟨hl, hu', rfl, hmu, by rw [hl, hu']; ring, by rw [hl, hu']; ring⟩
  · intro hlb
    have hl : reluLambdaL lb ub dpLambda it = 1 := by
      simp only [reluLambdaL]; rw [if_pos hlb]
    have hu' : reluLambdaU lb ub = 1 := by
      simp only [reluLambdaU]; rw [if_pos hlb]
    have hmu : reluMuU lb ub = 0 := by
      simp only [reluMuU]
      rw [if_neg]
      rintro ⟨h1, -⟩; linarith
    refine ⟨hl, hu', rfl, hmu, ?_, ?_⟩ <;>
      rw [hl, hu'] <;>
      simpa [get_neg_pos_comp] using max_add_min c 0


/-- C3 witness: at concrete stable neurons the overrides hold: with bounds
(-2, -1) a learned slope 7 is forced to 0, and with bounds (1, 2) it is forced
to 1. -/
theorem relu_stable_overrides_witness :
    reluLambdaL (-2) (-1) (some 7) 5 = 0 ∧ reluLambdaL 1 2 (some 7) 5 = 1 :=
  ⟨((relu_stable_overrides (-2) (-1) (some 7) 5 3 (by norm_num)).1 (by norm_num)).1,
   ((relu_stable_overrides 1 2 (some 7) 5 3 (by norm_num)).2 (by norm_num)).1⟩

/-- C4: dp_relu splits every coefficient into its strictly-positive and
strictly-negative parts and recombines them with the lower/upper slopes with
the sign-dependent pairing; the offset contributions are paired the same way,
summed over the neuron extent, and added to the running biases. -/
theorem dp_relu_sign_split_propagation (dp : DeepPoly) (bounds : Bnds) (it : ℕ)
    (dpLambda : Option (ℕ → ℚ)) (k i : ℕ) :
    (dp.dp_relu bounds it dpLambda).x_l_coef k i =
      (if 0 < dp.x_l_coef k i then dp.x_l_coef k i else 0) *
        reluLambdaL (bounds.lb i) (bounds.ub i) (dpLambda.map (fun f => f i)) it
      + (if dp.x_l_coef k i < 0 then dp.x_l_coef k i else 0) *
        reluLambdaU (bounds.lb i) (bounds.ub i) ∧
    (dp.dp_relu bounds it dpLambda).x_u_coef k i =
      (if 0 < dp.x_u_coef k i then dp.x_u_coef k i else 0) *
        reluLambdaU (bounds.lb i) (bounds.ub i)
      + (if dp.x_u_coef k i < 0 then dp.x_u_coef k i else 0) *
        reluLambdaL (bounds.lb i) (bounds.ub i) (dpLambda.map (fun f => f i)) it ∧
    (dp.dp_relu bounds it dpLambda).x_l_bias k =
      dp.x_l_bias k + ∑ j ∈ Finset.range bounds.dim,
        ((if 0 < dp.x_l_coef k j then dp.x_l_coef k j else 0) *
            reluMuL (bounds.lb j) (bounds.ub j)
          + (if dp.x_l_coef k j < 0 then dp.x_l_coef k j else 0) *
            reluMuU (bounds.lb j) (bounds.ub j)) ∧
    (dp.dp_relu bounds it dpLambda).x_u_bias k =
      dp.x_u_bias k + ∑ j ∈ Finset.range bounds.dim,
        ((if 0 < dp.x_u_coef k j then dp.x_u_coef k j else 0) *
            reluMuU (bounds.lb j) (bounds.ub j)
          + (if dp.x_u_coef k j < 0 then dp.x_u_coef k j else 0) *
            reluMuL (bounds.lb j) (bounds.ub j)) := by
  refine ⟨?_, ?_, ?_, ?_⟩ <;>
    simp only [DeepPoly.dp_relu, get_neg_pos_comp, max_zero_eq_ite, min_zero_eq_ite]

/-- C9: when ub = lb (including ub = lb = 0) the denominator ub - lb + 1e-15 of
the dp_relu slope division is strictly positive, so no division by zero occurs;
the upper offset is exactly 0 and the upper slope reduces to the stable value
(1 for positive bounds, 0 otherwise). -/
theorem dp_relu_degenerate_width_guard (lb ub : ℚ) (h : ub = lb) :
    0 < ub - lb + epsQ ∧ (ub - lb + epsQ) ≠ 0 ∧
    reluMuU lb ub = 0 ∧
    reluLambdaU lb ub = (if 0 < lb then 1 else 0) := by
  have hpos : 0 < ub - lb + epsQ := by
    rw [h, sub_self, zero_add]; norm_num [epsQ]
  refine ⟨hpos, ne_of_gt hpos, ?_, ?_⟩
  · simp only [reluMuU]
    rw [if_neg]
    rintro ⟨h1, h2⟩; rw [h] at h2; linarith
  · simp only [reluLambdaU]
    by_cases hl : 0 < lb
    · rw [if_pos hl, if_pos hl]
    · rw [if_neg hl, if_neg hl]
      by_cases hu : ub < 0
      · rw [if_pos hu]
      · rw [if_neg hu]
        have hub : ub = 0 := le_antisymm (h ▸ not_lt.mp hl) (not_lt.mp hu)
        rw [hub, zero_div]

/-- C9 witness: the guard holds at the concrete degenerate neuron
lb = ub = 0. -/
theorem dp_relu_degenerate_width_guard_witness :
    0 < (0 : ℚ) - 0 + epsQ :=
  (dp_relu_degenerate_width_guard 0 0 rfl).1

/-- C10: DeepPoly.__init__ with expr_coef = None and at least one missing
coefficient returns silently (no exception) with every field unset, modelled as
the uninitialized result. -/
theorem deeppoly_init_silent_uninitialized (xl xu : Option (ℕ → ℕ → ℚ))
    (bl bu : Option (ℕ → ℚ)) (h : xl = none ∨ xu = none) :
    DeepPoly.init xl xu bl bu none = DeepPolyInit.uninitialized := by
  rcases h with h | h
  · subst h
    cases xu <;> rfl
  · subst h
    cases xl <;> rfl

/-- C10 witness: the constructor misuse at a concrete call. -/
theorem deeppoly_init_silent_uninitialized_witness :
    DeepPoly.init none (some (fun _ _ => 1)) none none none =
      DeepPolyInit.uninitialized :=
  deeppoly_init_silent_uninitialized none (some (fun _ _ => 1)) none none (Or.inl rfl)


set_option maxHeartbeats 4000000 in
/-- Numeric evaluation of forward_deeppoly on the single-ReLU network with
cached bounds [-1, 3] over input region [-1, 3]. -/
theorem relu1_forward_eval :
    (forward_deeppoly relu1Net 1 relu1Bounds none 0 false false true).map
        (fun p => (p.1 0, p.2 0)) = some (-1, 12 / (4 + epsQ)) := by
  norm_num [forward_deeppoly, backward_deeppoly, backward_loop, backprop_dp,
    DeepPoly.dp_relu, DeepPoly.dp_concretize, mergeBounds, eyeDP, eyeCoef,
    get_neg_pos_comp, reluLambdaL, reluLambdaU, reluMuL, reluMuU, epsQ,
    relu1Net, relu1Bounds, Finset.sum_range_one]

set_option maxHeartbeats 1000000 in
/-- C1: soundness of the whole propagation fails on the code. For the network
consisting of a single ReLU layer with sound cached bounds [-1, 3] over the
input region [-1, 3], forward_deeppoly returns the pair
(-1, 12/(4 + 1e-15)), yet the true forward value at the input x = 3 (a point
of the region) is ReLU(3) = 3, which is strictly above the returned upper
bound: the 1e-15 guard in the denominator of the chord slope pushes the upper
relaxation strictly below ReLU near x = ub, so the containment claimed by the
soundness invariant is violated. -/
theorem forward_deeppoly_upper_bound_excludes_true_value :
    (forward_deeppoly relu1Net 1 relu1Bounds none 0 false false true).map
        (fun p => (p.1 0, p.2 0)) = some (-1, 12 / (4 + epsQ)) ∧
    12 / (4 + epsQ) < 3 ∧
    forward_list relu1Net (fun _ => 3) 0 = 3 ∧
    (∀ i, relu1Bounds.lb i ≤ (3 : ℚ) ∧ (3 : ℚ) ≤ relu1Bounds.ub i) := by
  refine ⟨relu1_forward_eval, by norm_num [epsQ], rfl, ?_⟩
  intro i
  constructor <;> norm_num [relu1Bounds]

/-- C6: the ResBlock pullback claim fails on the code. The backprop_dp dispatch
for a ResBlock (line 306) evaluates the undefined module-level name
lambda_layer, so every ResBlock reached during dispatch raises NameError
(modelled as the error result) instead of returning a relation. Moreover, even
calling DeepPoly.dp_res_block directly on the claimed scenario (identity
downsample, residual = identity Linear, no final ReLU) doubles only the
coefficients: the biases are not doubled, because the identity branch is seeded
with zero biases (line 258), so the output is not 2x the input relation. -/
theorem resblock_dispatch_raises_and_biases_not_doubled :
    backprop_dp (Layer.resblock idLinear none none none) resIn 0 false = none ∧
    (resIn.dp_res_block idLinear none none 0 none false false).map
        (fun out => (out.x_l_coef 0 0, out.x_u_coef 0 0,
          out.x_l_bias 0, out.x_u_bias 0)) = some (2, 2, 1, 1) ∧
    resIn.x_l_coef 0 0 = 1 ∧ resIn.x_l_bias 0 = 1 ∧
    (1 : ℚ) ≠ 2 * resIn.x_l_bias 0 := by
  refine ⟨?_, ?_, rfl, rfl, by norm_num [resIn]⟩
  · simp [backprop_dp]
  · norm_num [DeepPoly.dp_res_block, backprop_dp, DeepPoly.dp_linear,
      DeepPoly.dp_add, resIn, idLinear, Finset.sum_range_one]

/-- Helper for C5: along the backward loop, running with intermediate-bound
reuse from any accumulator yields bounds at least as tight as running without
reuse from the empty accumulator, because the relation evolution is identical
in both runs, the final concretization against the input region happens in
both, and merging only takes pointwise maxima of lower and minima of upper
bounds. -/
theorem backward_loop_intermediate_tightens (layersRev : List Layer)
    (dp : DeepPoly) (it : ℕ) (ul : Bool) (absInput : Bnds)
    (accT : Option ((ℕ → ℚ) × (ℕ → ℚ))) (rT : (ℕ → ℚ) × (ℕ → ℚ))
    (hT : backward_loop layersRev dp it ul true absInput accT = some rT)
    (hne : layersRev ≠ []) :
    ∃ rF, backward_loop layersRev dp it ul false absInput none = some rF ∧
      ∀ k, rF.1 k ≤ rT.1 k ∧ rT.2 k ≤ rF.2 k := by
  induction layersRev generalizing dp accT rT with
  | nil => exact absurd rfl hne
  | cons l rest ih =>
    rw [backward_loop] at hT
    rw [backward_loop]
    cases hbp : backprop_dp l dp it ul with
    | none => rw [hbp] at hT; exact absurd hT (by simp)
    | some dp1 =>
      rw [hbp] at hT
      cases rest with
      | nil =>
        simp only [List.isEmpty_nil, if_true, backward_loop] at hT ⊢
        refine ⟨mergeBounds none (dp1.dp_concretize absInput), rfl, ?_⟩
        intro k
        rw [← Option.some_inj.mp hT]
        cases accT with
        | none => exact ⟨le_refl _, le_refl _⟩
        | some a =>
          exact ⟨le_max_right _ _, min_le_right _ _⟩
      | cons l2 rest2 =>
        simp only [List.isEmpty_cons, Bool.false_eq_true, if_false] at hT ⊢
        exact ih dp1 _ rT hT (by simp)

/-- C5: for every network, starting index, seed relation and input region, the
bounds returned by backward_deeppoly with use_intermediate = true are contained
in (never looser than) the bounds returned with use_intermediate = false:
successive partial bounds are merged by pointwise maximum of lower and minimum
of upper bounds, and the final concretization at layer 0 occurs in both
runs. -/
theorem backward_deeppoly_intermediate_tightens (net : List Layer)
    (layerIdx : ℕ) (dp : DeepPoly) (it : ℕ) (ul : Bool) (absInput : Bnds)
    (rT : (ℕ → ℚ) × (ℕ → ℚ))
    (hT : backward_deeppoly net layerIdx dp it ul true absInput = some rT) :
    ∃ rF, backward_deeppoly net layerIdx dp it ul false absInput = some rF ∧
      ∀ k, rF.1 k ≤ rT.1 k ∧ rT.2 k ≤ rF.2 k := by
  rw [backward_deeppoly] at hT ⊢
  refine backward_loop_intermediate_tightens _ dp it ul absInput none rT hT ?_
  intro hemp
  rw [hemp, backward_loop] at hT
  exact absurd hT (by simp)

/-- C5 witness: both runs succeed on the single-ReLU network and the
with-intermediate bounds are contained in the without-intermediate bounds. -/
theorem backward_deeppoly_intermediate_tightens_witness :
    ∃ rT rF,
      backward_deeppoly relu1Net 0 (eyeDP 1) 0 false true relu1Bounds = some rT ∧
      backward_deeppoly relu1Net 0 (eyeDP 1) 0 false false relu1Bounds = some rF ∧
      ∀ k, rF.1 k ≤ rT.1 k ∧ rT.2 k ≤ rF.2 k := by
  have hs : (backward_deeppoly relu1Net 0 (eyeDP 1) 0 false true relu1Bounds).isSome
      = true := by
    simp [backward_deeppoly, backward_loop, backprop_dp, relu1Net]
  obtain ⟨rT, hT⟩ := Option.isSome_iff_exists.mp hs
  obtain ⟨rF, hF, hiq⟩ :=
    backward_deeppoly_intermediate_tightens relu1Net 0 (eyeDP 1) 0 false
      relu1Bounds rT hT
  exact ⟨rT, rF, hT, hF, hiq⟩

/-! Helper lemmas about layers and lists, used by the memoization proofs. -/

theorem isRelu_update_bounds (l : Layer) (b : Bnds) :
    (l.update_bounds b).isRelu = l.isRelu := by
  cases l <;> rfl

theorem reluDim_update_bounds (l : Layer) (b : Bnds) :
    (l.update_bounds b).reluDim = l.reluDim := by
  cases l <;> rfl

theorem bounds_update_bounds (l : Layer) (b : Bnds) :
    (l.update_bounds b).bounds = some b := by
  cases l <;> rfl

theorem update_bounds_update_bounds (l : Layer) (b b' : Bnds) :
    (l.update_bounds b).update_bounds b' = l.update_bounds b' := by
  cases l <;> rfl

theorem take_set_self {α : Type} (l : List α) (n : ℕ) (a : α) :
    (l.set n a).take n = l.take n := by
  induction l generalizing n with
  | nil => simp
  | cons x xs ih =>
    cases n with
    | zero => simp
    | succ m => simpa using ih m

/-- The max_layer_id = 0 branch of compute_dp_relu_bounds (lines 343-344 and
370): the input concretization is written into layer 0's cache, whatever the
layer kind; memo and log are untouched. -/
theorem computeF_zero_spec (fuel : ℕ) (n : List Layer) (inp : Bnds) (it : ℕ)
    (m : List ℕ) (ul rc ui : Bool) (net1 : List Layer) (memo1 log1 : List ℕ)
    (h : computeF fuel n 0 inp it m ul rc ui = some (net1, memo1, log1)) :
    memo1 = m ∧ log1 = [] ∧
    ∃ l, n.get? 0 = some l ∧ net1 = n.set 0 (l.update_bounds inp) := by
  cases fuel with
  | zero => rw [computeF] at h; exact Option.noConfusion h
  | succ f =>
    rw [computeF, if_pos rfl] at h
    cases hget : n.get? 0 with
    | none => rw [hget] at h; exact Option.noConfusion h
    | some l =>
      rw [hget] at h
      simp only [Option.some.injEq, Prod.mk.injEq] at h
      obtain ⟨h1, h2, h3⟩ := h
      exact ⟨h2.symm, h3.symm, l, rfl, h1.symm⟩

/-- Specification of the loop of compute_dp_relu_bounds, generic in the
recursion function: provided every recursive call on a ReLU index satisfies the
memoization contract, the loop only grows the memo, appends a duplicate-free
batch of fresh indices to the log, records every logged index in the final
memo, and leaves the cache of every non-ReLU layer unchanged. -/
theorem compute_loop_spec
    (recurse : List Layer → ℕ → List ℕ → Option (List Layer × List ℕ × List ℕ))
    (rc : Bool) (maxId : ℕ)
    (Hrec : ∀ n i m net1 memo1 log1,
      (n.get? i).map Layer.isRelu = some true →
      recurse n i m = some (net1, memo1, log1) →
      (∃ ext, memo1 = m ++ ext) ∧ log1.Nodup ∧
      (∀ j ∈ log1, j ≤ i ∧ (j ∉ m ∨ j = i)) ∧
      (∀ j ∈ log1, j ∈ memo1 ∨ j = i) ∧
      (∀ j, (n.get? j).map Layer.isRelu = some false → net1.get? j = n.get? j)) :
    ∀ (idxs : List ℕ) (net : List Layer) (memo : List ℕ) (fr : Bool)
      (log : List ℕ) (net' : List Layer) (memo' log' : List ℕ) (fr' : Bool),
      (∀ i ∈ idxs, i < maxId) →
      compute_loop recurse rc idxs net memo fr log = some (net', memo', log', fr') →
      (∃ ext, memo' = memo ++ ext) ∧
      (∃ nl, log' = log ++ nl ∧ nl.Nodup ∧
        (∀ j ∈ nl, j < maxId ∧ j ∉ memo) ∧ (∀ j ∈ nl, j ∈ memo')) ∧
      (∀ j, (net.get? j).map Layer.isRelu = some false →
        net'.get? j = net.get? j) := by
  intro idxs
  induction idxs with
  | nil =>
    intro net memo fr log net' memo' log' fr' hbnd h
    rw [compute_loop] at h
    simp only [Option.some.injEq, Prod.mk.injEq] at h
    obtain ⟨rfl, rfl, rfl, rfl⟩ := h
    exact ⟨⟨[], by simp⟩, ⟨[], by simp, List.nodup_nil, by simp, by simp⟩,
      fun j _ => rfl⟩
  | cons i rest ih =>
    intro net memo fr log net' memo' log' fr' hbnd h
    have hi : i < maxId := hbnd i (by simp)
    have hbnd' : ∀ x ∈ rest, x < maxId := fun x hx => hbnd x (by simp [hx])
    rw [compute_loop] at h
    cases hget : net.get? i with
    | none =>
      rw [hget] at h
      simp only [Option.some.injEq, Prod.mk.injEq] at h
      obtain ⟨rfl, rfl, rfl, rfl⟩ := h
      exact ⟨⟨[], by simp⟩, ⟨[], by simp, List.nodup_nil, by simp, by simp⟩,
        fun j _ => rfl⟩
    | some layer =>
      simp only [hget] at h
      by_cases hc1 : (layer.isRelu && !(memo.contains i)) = true
      · rw [if_pos hc1] at h
        obtain ⟨hrelu, hnc⟩ : layer.isRelu = true ∧ memo.contains i = false := by
          simpa using hc1
        have hmem : i ∉ memo := by
          intro hin
          rw [← List.elem_iff] at hin
          exact absurd hin (by simp [List.contains] at hnc ⊢; exact hnc)
        by_cases hc2 : (layer.bounds.isNone || rc) = true
        · rw [if_pos hc2] at h
          by_cases hc3 : (!(fr && layer.bounds.isSome)) = true
          · rw [if_pos hc3] at h
            cases hrecv : recurse net i memo with
            | none => rw [hrecv] at h; exact Option.noConfusion h
            | some t =>
              obtain ⟨net1, memo1, log1⟩ := t
              simp only [hrecv] at h
              have hreluM : (net.get? i).map Layer.isRelu = some true := by
                rw [hget]
                exact congrArg some hrelu
              obtain ⟨⟨ext1, hm1⟩, hnd1, hb1, hmm1, hp1⟩ :=
                Hrec net i memo net1 memo1 log1 hreluM hrecv
              obtain ⟨⟨ext2, hm2⟩, ⟨nl2, hl2, hnd2, hb2, hmm2⟩, hp2⟩ :=
                ih net1 (memo1 ++ [i]) false (log ++ log1) net' memo' log' fr'
                  hbnd' h
              refine ⟨⟨ext1 ++ [i] ++ ext2, by rw [hm2, hm1]; simp⟩,
                ⟨log1 ++ nl2, by rw [hl2]; simp, ?_, ?_, ?_⟩, ?_⟩
              · rw [List.nodup_append]
                refine ⟨hnd1, hnd2, ?_⟩
                intro a ha ha2
                have h1 : a ∈ memo1 ++ [i] := by
                  rcases hmm1 a ha with hx | rfl
                  · exact List.mem_append.mpr (Or.inl hx)
                  · simp
                exact absurd h1 (hb2 a ha2).2
              · intro j hj
                rcases List.mem_append.mp hj with hj1 | hj2
                · obtain ⟨hle, hor⟩ := hb1 j hj1
                  refine ⟨lt_of_le_of_lt hle hi, ?_⟩
                  rcases hor with hno | rfl
                  · exact hno
                  · exact hmem
                · obtain ⟨hlt, hnm⟩ := hb2 j hj2
                  refine ⟨hlt, fun hjm => hnm ?_⟩
                  refine List.mem_append.mpr (Or.inl ?_)
                  rw [hm1]
                  exact List.mem_append.mpr (Or.inl hjm)
              · intro j hj
                rcases List.mem_append.mp hj with hj1 | hj2
                · rw [hm2]
                  refine List.mem_append.mpr (Or.inl ?_)
                  rcases hmm1 j hj1 with hx | rfl
                  · exact List.mem_append.mpr (Or.inl hx)
                  · simp
                · exact hmm2 j hj2
              · intro j hnr
                have e1 := hp1 j hnr
                have hnr1 : (net1.get? j).map Layer.isRelu = some false := by
                  rw [e1]; exact hnr
                rw [hp2 j hnr1, e1]
          · rw [if_neg hc3] at h
            obtain ⟨⟨ext2, hm2⟩, ⟨nl2, hl2, hnd2, hb2, hmm2⟩, hp2⟩ :=
              ih net (memo ++ [i]) false log net' memo' log' fr' hbnd' h
            refine ⟨⟨[i] ++ ext2, by rw [hm2]; simp⟩,
              ⟨nl2, hl2, hnd2, ?_, hmm2⟩, hp2⟩
            intro j hj
            obtain ⟨hlt, hnm⟩ := hb2 j hj
            exact ⟨hlt, fun hjm => hnm (List.mem_append.mpr (Or.inl hjm))⟩
        · rw [if_neg hc2] at h
          obtain ⟨⟨ext2, hm2⟩, ⟨nl2, hl2, hnd2, hb2, hmm2⟩, hp2⟩ :=
            ih net (memo ++ [i]) false log net' memo' log' fr' hbnd' h
          refine ⟨⟨[i] ++ ext2, by rw [hm2]; simp⟩,
            ⟨nl2, hl2, hnd2, ?_, hmm2⟩, hp2⟩
          intro j hj
          obtain ⟨hlt, hnm⟩ := hb2 j hj
          exact ⟨hlt, fun hjm => hnm (List.mem_append.mpr (Or.inl hjm))⟩
      · rw [if_neg hc1] at h
        exact ih net memo fr log net' memo' log' fr' hbnd' h

/-- Memoization specification of compute_dp_relu_bounds: within one call the
log of backward-substitution passes is duplicate-free, every logged index is at
most the requested one and not already memoized (or is the requested index),
every logged index below the requested one ends in the memo, non-ReLU caches
are never written for a positive requested index, and a non-ReLU requested
layer never gets a substitution pass. -/
theorem computeF_spec : ∀ (fuel : ℕ) (net : List Layer) (maxId : ℕ) (inp : Bnds)
    (it : ℕ) (memo : List ℕ) (ul rc ui : Bool) (net' : List Layer)
    (memo' log' : List ℕ),
    computeF fuel net maxId inp it memo ul rc ui = some (net', memo', log') →
    (∃ ext, memo' = memo ++ ext) ∧ log'.Nodup ∧
    (∀ j ∈ log', j ≤ maxId ∧ (j ∉ memo ∨ j = maxId)) ∧
    (∀ j ∈ log', j ∈ memo' ∨ j = maxId) ∧
    (0 < maxId → ∀ j, (net.get? j).map Layer.isRelu = some false →
      net'.get? j = net.get? j) ∧
    (0 < maxId → (net.get? maxId).map Layer.isRelu = some false →
      maxId ∉ log') := by
  intro fuel
  induction fuel with
  | zero =>
    intro net maxId inp it memo ul rc ui net' memo' log' h
    rw [computeF] at h
    exact Option.noConfusion h
  | succ f ihf =>
    intro net maxId inp it memo ul rc ui net' memo' log' h
    rw [computeF] at h
    by_cases h0 : maxId = 0
    · rw [if_pos h0] at h
      cases hget : net.get? 0 with
      | none => rw [hget] at h; exact Option.noConfusion h
      | some l =>
        simp only [hget, Option.some.injEq, Prod.mk.injEq] at h
        obtain ⟨h1, h2, h3⟩ := h
        subst h2
        subst h3
        refine ⟨⟨[], by simp⟩, List.nodup_nil, by simp, by simp, ?_, ?_⟩
        · intro hpos; exact absurd h0 (by omega)
        · intro hpos; exact absurd h0 (by omega)
    · rw [if_neg h0] at h
      have hpos : 0 < maxId := Nat.pos_of_ne_zero h0
      have Hrec : ∀ n i m net1 memo1 log1,
          (n.get? i).map Layer.isRelu = some true →
          computeF f n i inp it m ul true ui = some (net1, memo1, log1) →
          (∃ ext, memo1 = m ++ ext) ∧ log1.Nodup ∧
          (∀ j ∈ log1, j ≤ i ∧ (j ∉ m ∨ j = i)) ∧
          (∀ j ∈ log1, j ∈ memo1 ∨ j = i) ∧
          (∀ j, (n.get? j).map Layer.isRelu = some false →
            net1.get? j = n.get? j) := by
        intro n i m net1 memo1 log1 hrelu hr
        obtain ⟨hm, hnd, hb, hmm, hp5, -⟩ :=
          ihf n i inp it m ul true ui net1 memo1 log1 hr
        refine ⟨hm, hnd, hb, hmm, ?_⟩
        intro j hnr
        rcases Nat.eq_zero_or_pos i with hi0 | hip
        · subst hi0
          obtain ⟨-, -, l0, hget0, hneteq⟩ :=
            computeF_zero_spec f n inp it m ul true ui net1 memo1 log1 hr
          subst hneteq
          by_cases hj0 : j = 0
          · subst hj0
            rw [hget0] at hrelu hnr
            simp only [Option.map_some', Option.some.injEq] at hrelu hnr
            rw [hrelu] at hnr
            exact absurd hnr (by simp)
          · exact List.get?_set_ne _ _ (Ne.symm hj0)
        · exact hp5 hip j hnr
      cases hloop : compute_loop
          (fun n i m => computeF f n i inp it m ul true ui) rc
          (List.range maxId) net memo true [] with
      | none => rw [hloop] at h; exact Option.noConfusion h
      | some q =>
        obtain ⟨net1, memo1, nl, fr1⟩ := q
        simp only [hloop] at h
        obtain ⟨⟨ext1, hm1⟩, ⟨nl', hl, hndl, hbl, hmml⟩, hpres⟩ :=
          compute_loop_spec _ rc maxId Hrec (List.range maxId) net memo true []
            net1 memo1 nl fr1 (fun i hi => List.mem_range.mp hi) hloop
        simp only [List.nil_append] at hl
        subst hl
        cases hgetm : net1.get? maxId with
        | none => rw [hgetm] at h; exact Option.noConfusion h
        | some lmax =>
          simp only [hgetm] at h
          by_cases hrel : lmax.isRelu = true
          · rw [if_pos hrel] at h
            cases hbw : backward_deeppoly net1 (maxId - 1) (eyeDP lmax.reluDim)
                it ul ui inp with
            | none => rw [hbw] at h; exact Option.noConfusion h
            | some p =>
              obtain ⟨xl, xu⟩ := p
              simp only [hbw, Option.some.injEq, Prod.mk.injEq] at h
              obtain ⟨hne, hme, hle⟩ := h
              subst hme hle
              refine ⟨⟨ext1, hm1⟩, ?_, ?_, ?_, ?_, ?_⟩
              · rw [List.nodup_append]
                refine ⟨hndl, by simp, ?_⟩
                intro a ha ha2
                have : a = maxId := by simpa using ha2
                exact absurd (hbl a ha).1 (by omega)
              · intro j hj
                rcases List.mem_append.mp hj with hj1 | hj2
                · exact ⟨le_of_lt (hbl j hj1).1, Or.inl (hbl j hj1).2⟩
                · have : j = maxId := by simpa using hj2
                  exact ⟨le_of_eq this, Or.inr this⟩
              · intro j hj
                rcases List.mem_append.mp hj with hj1 | hj2
                · exact Or.inl (hmml j hj1)
                · exact Or.inr (by simpa using hj2)
              · intro _ j hnr
                subst hne
                by_cases hjm : j = maxId
                · subst hjm
                  rw [hpres j hnr] at hgetm
                  rw [hgetm] at hnr
                  simp only [Option.map_some', Option.some.injEq] at hnr
                  exact absurd hrel (by simp [hnr])
                · rw [List.get?_set_ne _ _ (Ne.symm hjm)]
                  exact hpres j hnr
              · intro _ hnr
                rw [hpres maxId hnr] at hgetm
                rw [hgetm] at hnr
                simp only [Option.map_some', Option.some.injEq] at hnr
                exact absurd hrel (by simp [hnr])
          · rw [if_neg hrel] at h
            simp only [Option.some.injEq, Prod.mk.injEq] at h
            obtain ⟨hne, hme, hle⟩ := h
            subst hne hme hle
            refine ⟨⟨ext1, hm1⟩, hndl, ?_, ?_, fun _ => hpres, ?_⟩
            · exact fun j hj => ⟨le_of_lt (hbl j hj).1, Or.inl (hbl j hj).2⟩
            · exact fun j hj => Or.inl (hmml j hj)
            · intro _ _ hin
              exact absurd (hbl maxId hin).1 (by omega)

/-- With recompute off and every enumerated ReLU cache populated, the loop of
compute_dp_relu_bounds performs no recursion: the network and log pass through
untouched, and the memo evolution depends only on the enumerated entries, so
two networks agreeing on the enumerated indices produce the same memo. -/
theorem compute_loop_noop_pair
    (recurse recurse2 : List Layer → ℕ → List ℕ →
      Option (List Layer × List ℕ × List ℕ)) :
    ∀ (idxs : List ℕ) (netA netB : List Layer),
      (∀ i ∈ idxs, netB.get? i = netA.get? i) →
      (∀ i ∈ idxs, ∀ layer, netA.get? i = some layer → layer.isRelu = true →
        layer.bounds.isSome = true) →
      ∀ (memo : List ℕ) (fr : Bool) (log : List ℕ), ∃ memo' fr',
        compute_loop recurse false idxs netA memo fr log =
          some (netA, memo', log, fr') ∧
        compute_loop recurse2 false idxs netB memo fr log =
          some (netB, memo', log, fr') := by
  intro idxs
  induction idxs with
  | nil =>
    intro netA netB hagree hbd memo fr log
    exact ⟨memo, fr, rfl, rfl⟩
  | cons i rest ih =>
    intro netA netB hagree hbd memo fr log
    have hag : netB.get? i = netA.get? i := hagree i (by simp)
    have hagree' : ∀ x ∈ rest, netB.get? x = netA.get? x :=
      fun x hx => hagree x (by simp [hx])
    have hbd' : ∀ x ∈ rest, ∀ layer, netA.get? x = some layer →
        layer.isRelu = true → layer.bounds.isSome = true :=
      fun x hx => hbd x (by simp [hx])
    cases hget : netA.get? i with
    | none =>
      refine ⟨memo, fr, ?_, ?_⟩
      · rw [compute_loop]
        simp only [hget]
      · rw [compute_loop]
        simp only [hag, hget]
    | some layer =>
      by_cases hc1 : (layer.isRelu && !(memo.contains i)) = true
      · have hrelu := (by simpa using hc1 :
          layer.isRelu = true ∧ memo.contains i = false).1
        have hsome : layer.bounds.isSome = true :=
          hbd i (by simp) layer hget hrelu
        obtain ⟨b, hb⟩ := Option.isSome_iff_exists.mp hsome
        have hc2 : ¬ ((layer.bounds.isNone || false) = true) := by
          rw [hb]; simp
        obtain ⟨memo', fr', hA, hB⟩ := ih netA netB hagree' hbd' (memo ++ [i])
          false log
        refine ⟨memo', fr', ?_, ?_⟩
        · rw [compute_loop]
          simp only [hget]
          rw [if_pos hc1, if_neg hc2]
          exact hA
        · rw [compute_loop]
          simp only [hag, hget]
          rw [if_pos hc1, if_neg hc2]
          exact hB
      · obtain ⟨memo', fr', hA, hB⟩ := ih netA netB hagree' hbd' memo fr log
        refine ⟨memo', fr', ?_, ?_⟩
        · rw [compute_loop]
          simp only [hget]
          rw [if_neg hc1]
          exact hA
        · rw [compute_loop]
          simp only [hag, hget]
          rw [if_neg hc1]
          exact hB

/-- Repeated-call idempotence of compute_dp_relu_bounds: with recompute off and
every ReLU cache populated, a second identical top-level call returns exactly
the state produced by the first (caches unchanged), and neither call runs a
substitution pass for any layer other than the requested one. -/
theorem compute_repeat (net : List Layer) (maxId : ℕ) (inp : Bnds) (it : ℕ)
    (ul ui : Bool) (net1 : List Layer) (memo1 log1 : List ℕ)
    (hall : ∀ l ∈ net, l.isRelu = true → l.bounds.isSome = true)
    (h1 : compute_dp_relu_bounds net maxId inp it [] ul false ui =
      some (net1, memo1, log1)) :
    compute_dp_relu_bounds net1 maxId inp it [] ul false ui =
      some (net1, memo1, log1) ∧
    ∀ j ∈ log1, j = maxId := by
  rw [compute_dp_relu_bounds] at h1 ⊢
  rw [computeF] at h1 ⊢
  by_cases h0 : maxId = 0
  · rw [if_pos h0] at h1 ⊢
    cases hget : net.get? 0 with
    | none => rw [hget] at h1; exact Option.noConfusion h1
    | some l =>
      simp only [hget, Option.some.injEq, Prod.mk.injEq] at h1
      obtain ⟨hnet, hmemo, hlog⟩ := h1
      subst hnet hmemo hlog
      have hlen : 0 < net.length := by
        rcases List.get?_eq_some.mp hget with ⟨hlt, -⟩
        exact hlt
      have hget1 : (net.set 0 (l.update_bounds inp)).get? 0 =
          some (l.update_bounds inp) :=
        List.get?_set_eq_of_lt _ (by simpa using hlen)
      simp only [hget1]
      rw [update_bounds_update_bounds, List.set_set]
      exact ⟨rfl, by simp⟩
  · rw [if_neg h0] at h1 ⊢
    obtain ⟨memoA, frA, hloopA, -⟩ :=
      compute_loop_noop_pair
        (fun n i m => computeF maxId n i inp it m ul true ui)
        (fun n i m => computeF maxId n i inp it m ul true ui)
        (List.range maxId) net net (fun _ _ => rfl)
        (fun i _ layer hget hr => hall layer (List.get?_mem hget) hr)
        [] true []
    simp only [hloopA] at h1
    cases hgetm : net.get? maxId with
    | none => rw [hgetm] at h1; exact Option.noConfusion h1
    | some lmax =>
      simp only [hgetm] at h1
      have hlenm : maxId < net.length := by
        rcases List.get?_eq_some.mp hgetm with ⟨hlt, -⟩
        exact hlt
      by_cases hrel : lmax.isRelu = true
      · rw [if_pos hrel] at h1
        cases hbw : backward_deeppoly net (maxId - 1) (eyeDP lmax.reluDim) it
            ul ui inp with
        | none => rw [hbw] at h1; exact Option.noConfusion h1
        | some p =>
          obtain ⟨xl, xu⟩ := p
          simp only [hbw, Option.some.injEq, Prod.mk.injEq] at h1
          obtain ⟨hnet, hmemo, hlog⟩ := h1
          subst hmemo hlog
          have hupd : net1 = net.set maxId
              (lmax.update_bounds ⟨lmax.reluDim, xl, xu⟩) := hnet.symm
          subst hupd
          obtain ⟨memoA2, frA2, hloopA2, hloopB⟩ :=
            compute_loop_noop_pair
              (fun n i m => computeF maxId n i inp it m ul true ui)
              (fun n i m => computeF maxId n i inp it m ul true ui)
              (List.range maxId) net
              (net.set maxId (lmax.update_bounds ⟨lmax.reluDim, xl, xu⟩))
              (fun i hi => List.get?_set_ne _ _
                (Nat.ne_of_gt (List.mem_range.mp hi)))
              (fun i _ layer hget hr => hall layer (List.get?_mem hget) hr)
              [] true []
          have hmemoeq : memoA2 = memoA ∧ frA2 = frA := by
            rw [hloopA] at hloopA2
            simp only [Option.some.injEq, Prod.mk.injEq] at hloopA2
            exact ⟨hloopA2.2.1.symm, hloopA2.2.2.2.symm⟩
          obtain ⟨hma, hfa⟩ := hmemoeq
          subst hma
          simp only [hloopB]
          have hgetm1 : (net.set maxId
              (lmax.update_bounds ⟨lmax.reluDim, xl, xu⟩)).get? maxId =
              some (lmax.update_bounds ⟨lmax.reluDim, xl, xu⟩) :=
            List.get?_set_eq_of_lt _ (by simpa using hlenm)
          simp only [hgetm1]
          rw [if_pos (by rw [isRelu_update_bounds]; exact hrel)]
          have hbw1 : backward_deeppoly
              (net.set maxId (lmax.update_bounds ⟨lmax.reluDim, xl, xu⟩))
              (maxId - 1)
              (eyeDP (lmax.update_bounds ⟨lmax.reluDim, xl, xu⟩).reluDim) it
              ul ui inp = some (xl, xu) := by
            rw [reluDim_update_bounds]
            rw [backward_deeppoly] at hbw ⊢
            rw [Nat.sub_add_cancel (Nat.one_le_iff_ne_zero.mpr h0)] at hbw ⊢
            rw [take_set_self]
            exact hbw
          simp only [hbw1]
          rw [update_bounds_update_bounds, reluDim_update_bounds,
            List.set_set]
          exact ⟨rfl, by simp⟩
      · rw [if_neg hrel] at h1
        simp only [Option.some.injEq, Prod.mk.injEq] at h1
        obtain ⟨hnet, hmemo, hlog⟩ := h1
        subst hmemo hlog
        have hnet1 : net1 = net := hnet.symm
        subst hnet1
        simp only [hloopA, hgetm]
        rw [if_neg hrel]
        exact ⟨rfl, by simp⟩

/-- C7 counterexample: the claim that a repeated top-level call with
recompute_bounds = false and all caches populated does not re-invoke
substitution for already-bounded layers is false: on a network whose ReLU
layer at index 1 already has cached bounds, the call logs a backward
substitution for index 1, and the repeated call logs it again. -/
theorem compute_reinvokes_bounded_target :
    (net2.get? 1).map Layer.bounds = some (some relu1Bounds) ∧
    ∃ net' b,
      compute_dp_relu_bounds net2 1 relu1Bounds 0 [] false false false =
        some (net', [], [1]) ∧
      net'.get? 1 = some (Layer.relu 1 (some b) none) ∧
      compute_dp_relu_bounds net' 1 relu1Bounds 0 [] false false false =
        some (net', [], [1]) := by
  refine ⟨rfl, ?_⟩
  refine ⟨_, _, rfl, rfl, ?_⟩
  rfl

/-- C7 (amended): within one top-level call of compute_dp_relu_bounds each
layer's backward-substitution pass runs at most once (the log is
duplicate-free, and every logged index is either fresh with respect to the
memo or the requested index itself); and a repeated top-level call with
recompute_bounds = false and all ReLU caches populated returns exactly the
state of the first call (every layer's cached bounds unchanged) and
re-invokes substitution only for the requested layer itself: already-bounded
earlier layers are never re-substituted. -/
theorem compute_dp_relu_bounds_memoization (net : List Layer) (maxId : ℕ)
    (inp : Bnds) (it : ℕ) (memo : List ℕ) (ul rc ui : Bool)
    (net1 : List Layer) (memo1 log1 : List ℕ)
    (h1 : compute_dp_relu_bounds net maxId inp it memo ul rc ui =
      some (net1, memo1, log1)) :
    (log1.Nodup ∧ ∀ j ∈ log1, j ≤ maxId ∧ (j ∉ memo ∨ j = maxId)) ∧
    (memo = [] → rc = false →
      (∀ l ∈ net, l.isRelu = true → l.bounds.isSome = true) →
      compute_dp_relu_bounds net1 maxId inp it [] ul false ui =
        some (net1, memo1, log1) ∧
      ∀ j ∈ log1, j = maxId) := by
  constructor
  · obtain ⟨-, hnd, hb, -, -, -⟩ :=
      computeF_spec (maxId + 1) net maxId inp it memo ul rc ui net1 memo1
        log1 h1
    exact ⟨hnd, hb⟩
  · intro hm hrc hall
    subst hm hrc
    exact compute_repeat net maxId inp it ul ui net1 memo1 log1 hall h1

/-- C7 witness: on the concrete network with a populated ReLU cache, the first
call succeeds with a duplicate-free log and the repeated call reproduces its
state exactly. -/
theorem compute_dp_relu_bounds_memoization_witness :
    ∃ net1 memo1 log1,
      compute_dp_relu_bounds net2 1 relu1Bounds 0 [] false false false =
        some (net1, memo1, log1) ∧ log1.Nodup ∧
      compute_dp_relu_bounds net1 1 relu1Bounds 0 [] false false false =
        some (net1, memo1, log1) := by
  obtain ⟨⟨net1, memo1, log1⟩, h1⟩ :
      ∃ r, compute_dp_relu_bounds net2 1 relu1Bounds 0 [] false false false =
        some r := ⟨_, rfl⟩
  have hall : ∀ l ∈ net2, l.isRelu = true → l.bounds.isSome = true := by
    intro l hl
    simp only [net2] at hl
    rcases List.mem_cons.mp hl with rfl | hl2
    · intro hr; exact absurd hr (by simp [idLinear, Layer.isRelu])
    · rcases List.mem_cons.mp hl2 with rfl | hl3
      · intro _; rfl
      · exact absurd hl3 (List.not_mem_nil l)
  obtain ⟨⟨hnd, -⟩, hrep⟩ :=
    compute_dp_relu_bounds_memoization net2 1 relu1Bounds 0 [] false false
      false net1 memo1 log1 h1
  obtain ⟨hsecond, -⟩ := hrep rfl rfl hall
  exact ⟨net1, memo1, log1, h1, hnd, hsecond⟩

/-- C8 counterexample: requesting a non-ReLU layer is not a no-op. On the
network [Linear, ReLU (no cache), Linear] with requested index 2 (a Linear),
compute_dp_relu_bounds runs a backward-substitution pass for the earlier ReLU
at index 1 (the log is [1]) and writes bounds into its previously unset cache,
so work is performed and a layer's cache changes. -/
theorem compute_nonrelu_request_mutates :
    (net3.get? 2).map Layer.isRelu = some false ∧
    (net3.get? 1).map Layer.bounds = some none ∧
    ∃ net1 b,
      compute_dp_relu_bounds net3 2 relu1Bounds 0 [] false false false =
        some (net1, [1], [1]) ∧
      net1.get? 1 = some (Layer.relu 1 (some b) none) ∧
      b.lb 0 = -1 ∧ b.ub 0 = 3 := by
  refine ⟨rfl, rfl, ?_⟩
  refine ⟨_, _, rfl, rfl, ?_, ?_⟩ <;>
    norm_num [DeepPoly.dp_linear, DeepPoly.dp_concretize, eyeDP, eyeCoef,
      get_neg_pos_comp, relu1Bounds, Layer.reluDim, Finset.sum_range_one,
      idLinear]

/-- C8 (amended): a call of compute_dp_relu_bounds whose requested layer is
not a ReLU does not write the requested layer's own cache and never runs a
substitution pass for it, and leaves every non-ReLU layer's cache unchanged —
but it may still compute and cache bounds for earlier ReLU layers; a request
at index 0 instead writes the input concretization into layer 0's cache
regardless of the layer's kind, leaving memo and log untouched. -/
theorem compute_dp_relu_bounds_nonrelu_behavior (net : List Layer)
    (maxId : ℕ) (inp : Bnds) (it : ℕ) (memo : List ℕ) (ul rc ui : Bool)
    (net1 : List Layer) (memo1 log1 : List ℕ)
    (h1 : compute_dp_relu_bounds net maxId inp it memo ul rc ui =
      some (net1, memo1, log1)) :
    (maxId = 0 → ∃ l, net.get? 0 = some l ∧
      net1 = net.set 0 (l.update_bounds inp) ∧ memo1 = memo ∧ log1 = []) ∧
    (0 < maxId → (net.get? maxId).map Layer.isRelu = some false →
      net1.get? maxId = net.get? maxId ∧ maxId ∉ log1 ∧
      ∀ j, (net.get? j).map Layer.isRelu = some false →
        net1.get? j = net.get? j) := by
  constructor
  · intro h0
    subst h0
    obtain ⟨hm, hl, l, hget, hnet⟩ :=
      computeF_zero_spec (0 + 1) net inp it memo ul rc ui net1 memo1 log1 h1
    exact ⟨l, hget, hnet, hm, hl⟩
  · intro hpos hnr
    obtain ⟨-, -, -, -, hp, hnin⟩ :=
      computeF_spec (maxId + 1) net maxId inp it memo ul rc ui net1 memo1
        log1 h1
    exact ⟨hp hpos maxId hnr, hnin hpos hnr, hp hpos⟩

/-- C8 witness: on the concrete network with non-ReLU requested index 2, the
requested layer's cache is unchanged and index 2 never enters the log. -/
theorem compute_dp_relu_bounds_nonrelu_behavior_witness :
    ∃ net1 memo1 log1,
      compute_dp_relu_bounds net3 2 relu1Bounds 0 [] false false false =
        some (net1, memo1, log1) ∧
      net1.get? 2 = net3.get? 2 ∧ 2 ∉ log1 := by
  obtain ⟨⟨net1, memo1, log1⟩, h1⟩ :
      ∃ r, compute_dp_relu_bounds net3 2 relu1Bounds 0 [] false false false =
        some r := ⟨_, rfl⟩
  obtain ⟨-, hB⟩ :=
    compute_dp_relu_bounds_nonrelu_behavior net3 2 relu1Bounds 0 [] false
      false false net1 memo1 log1 h1
  obtain ⟨ha, hb, -⟩ := hB (by norm_num) rfl
  exact ⟨net1, memo1, log1, h1, ha, hb⟩

end CTBench
